import Mathlib

/-!
Verification of the `pcg` crate (PCG-XSH-RS-64/32, MCG variant) against its
natural-language specification.  The Rust source in `src/lib.rs` is shallowly
embedded below: the generator state is a `Nat` kept below `2^64`, wrapping
64-bit arithmetic is explicit `% 2^64`, and each Rust method becomes a pure
Lean function returning the updated state together with its output.
-/

namespace Pcg

/-- Constant from the source: 8^20 + 3, the MCG multiplier. -/
def MULTIPLIER : Nat := 0x1000000000000003

/-- Constant from the source: the inverse of MULTIPLIER modulo 2^64. -/
def INVERSE : Nat := 0x1AAAAAAAAAAAAAAB

/-- Embedding of `Pcg::next_u32`: one wrapping multiplication of the state by
MULTIPLIER, then the xorshift-and-variable-shift output permutation, truncated
to 32 bits by the `as u32` cast.  Returns (new state, output). -/
def next_u32 (s : Nat) : Nat × Nat :=
  let s' := (s * MULTIPLIER) % 2 ^ 64
  (s', ((s' ^^^ (s' >>> 22)) >>> (22 + (s' >>> 61))) % 2 ^ 32)

/-- Embedding of `Pcg::next_u64`: two `next_u32` calls, the first shifted into
the high half and XORed with the second.  Returns (new state, output). -/
def next_u64 (s : Nat) : Nat × Nat :=
  let p1 := next_u32 s
  let p2 := next_u32 p1.1
  (p2.1, (p1.2 <<< 32) ^^^ p2.2)

/-- Embedding of `Pcg::seed_from_u64`: the seed is stored directly, except
that a zero seed is replaced by 1 (the state must never be zero). -/
def seed_from_u64 (seed : Nat) : Nat :=
  if seed = 0 then 1 else seed

/-- Embedding of the loop body of `arr_to_u64`: for each byte, in order,
`seed ^= (byte as u64) << (8 * i)`. -/
def arr_to_u64_go (a : List Nat) (i : Nat) (seed : Nat) : Nat :=
  match a with
  | [] => seed
  | b :: rest => arr_to_u64_go rest (i + 1) (seed ^^^ (b <<< (8 * i)))

/-- Embedding of `arr_to_u64`: XOR-accumulate the bytes, byte `i` shifted left
by `8 * i`, starting from 0. -/
def arr_to_u64 (a : List Nat) : Nat :=
  arr_to_u64_go a 0 0

/-- Embedding of `Pcg::from_seed`: pack the 8 seed bytes with `arr_to_u64` and
delegate to `seed_from_u64`. -/
def from_seed (a : List Nat) : Nat :=
  seed_from_u64 (arr_to_u64 a)

/-- Embedding of the loops inside `Pcg::skip`: `k` successive wrapping
multiplications of the state by `m`. -/
def mulLoop (m : Nat) : Nat → Nat → Nat
  | 0, s => s
  | k + 1, s => mulLoop m k ((s * m) % 2 ^ 64)

/-- Embedding of `Pcg::skip`: a zero count returns immediately; a positive
count multiplies the state by MULTIPLIER `n` times; a negative count
multiplies the state by INVERSE `|n|` times (the Rust loop `for _ in n..0`
runs `-n` iterations, which is well defined even for `i32::MIN`). -/
def skip (s : Nat) (n : Int) : Nat :=
  if n = 0 then s
  else if 0 < n then mulLoop MULTIPLIER n.toNat s
  else mulLoop INVERSE (-n).toNat s

/-- Sequence of the first `n` outputs of `next_u32` started from state `s`. -/
def outputs (s : Nat) : Nat → List Nat
  | 0 => []
  | n + 1 => (next_u32 s).2 :: outputs (next_u32 s).1 n

/-- Little-endian byte extraction: the first `k` bytes of `x`, least
significant first, as produced by Rust's `to_le_bytes`. -/
def leBytes (x k : Nat) : List Nat :=
  (List.range k).map (fun i => (x >>> (8 * i)) % 256)

/-- Embedding of `rand_core::impls::fill_bytes_via_next`, the body of
`Pcg::fill_bytes` (the function itself lives in the `rand_core` dependency;
the repository's own `test_fill_bytes` pins this behaviour).  While at least
8 bytes remain, one `next_u64` output is written little-endian; a remainder
of 5..=7 bytes takes a prefix of a `next_u64` output, a remainder of 1..=4
bytes a prefix of a `next_u32` output.  Returns (new state, bytes). -/
def fill_bytes (s : Nat) : Nat → Nat × List Nat
  | len + 8 =>
    let p := next_u64 s
    let rest := fill_bytes p.1 len
    (rest.1, leBytes p.2 8 ++ rest.2)
  | len =>
    if 4 < len then
      let p := next_u64 s
      (p.1, (leBytes p.2 8).take len)
    else if 0 < len then
      let p := next_u32 s
      (p.1, (leBytes p.2 4).take len)
    else (s, [])

/-- Operations a caller can perform on one generator, for stating
whole-trajectory invariants. -/
inductive Op where
  | next32 : Op
  | next64 : Op
  | skipBy : Int → Op
  | newStream : Op

/-- Effect of one operation on the acting generator's state.  `newStream`
advances the parent by one `next_u64` (two steps). -/
def applyOp (s : Nat) : Op → Nat
  | Op.next32 => (next_u32 s).1
  | Op.next64 => (next_u64 s).1
  | Op.skipBy n => skip s n
  | Op.newStream => (next_u64 s).1

/-- State of the acting generator after a list of operations. -/
def run (s : Nat) : List Op → Nat
  | [] => s
  | op :: rest => run (applyOp s op) rest

/-- Initial states of all child generators spawned by `new_stream` along a
list of operations: each child is seeded, via `seed_from_u64`, from the
parent's `next_u64` output at the point of derivation. -/
def children (s : Nat) : List Op → List Nat
  | [] => []
  | op :: rest =>
    (match op with
     | Op.newStream => [seed_from_u64 (next_u64 s).2]
     | _ => []) ++ children (applyOp s op) rest

/-- Statement of the amended byte-fill property: the buffer is built from
pairs of 32-bit outputs, each 8-byte chunk holding the little-endian bytes of
the second output of the pair followed by those of the first (the order the
little-endian encoding of the big-endian `next_u64` concatenation yields). -/
def pairChunks (s : Nat) : Nat → Nat × List Nat
  | 0 => (s, [])
  | q + 1 =>
    let p1 := next_u32 s
    let p2 := next_u32 p1.1
    let rest := pairChunks p2.1 q
    (rest.1, (leBytes p2.2 4 ++ leBytes p1.2 4) ++ rest.2)

end Pcg

namespace Pcg

/-! ### Helper lemmas -/

/-- XOR of a shifted value with a small value is addition: the two arguments
occupy disjoint bit ranges. -/
theorem shiftLeft_xor_eq_add (a b n : Nat) (hb : b < 2 ^ n) :
    (a <<< n) ^^^ b = a * 2 ^ n + b := by
  apply Nat.eq_of_testBit_eq
  intro i
  rw [Nat.mul_comm a (2 ^ n)]
  rw [Nat.testBit_mul_pow_two_add a hb i]
  rw [Nat.testBit_xor, Nat.testBit_shiftLeft]
  rcases Nat.lt_or_ge i n with h | h
  · have : ¬ i ≥ n := by omega
    simp [this, h]
  · have hbit : b.testBit i = false :=
      Nat.testBit_lt_two_pow (Nat.lt_of_lt_of_le hb (Nat.pow_le_pow_right (by norm_num) h))
    have : ¬ i < n := by omega
    simp [h, this, hbit]

/-- Outputs of `next_u32` are 32-bit values. -/
theorem next_u32_val_lt (s : Nat) : (next_u32 s).2 < 2 ^ 32 := by
  unfold next_u32
  exact Nat.mod_lt _ (by norm_num)

/-- Closed form of the skip loop: `k` wrapping multiplications by `m` amount
to one multiplication by `m ^ k` modulo `2 ^ 64` (for `k = 0` the state is
untouched). -/
theorem mulLoop_eq (m : Nat) :
    ∀ k s, mulLoop m k s = if k = 0 then s else (s * m ^ k) % 2 ^ 64 := by
  intro k
  induction k with
  | zero => intro s; simp [mulLoop]
  | succ k ih =>
    intro s
    rw [mulLoop, ih ((s * m) % 2 ^ 64)]
    rcases Nat.eq_zero_or_pos k with hk | hk
    · subst hk; simp [pow_one]
    · have hk' : k ≠ 0 := by omega
      simp only [hk', if_false, Nat.succ_ne_zero]
      rw [Nat.mod_mul_mod, Nat.mul_assoc, ← pow_succ']

/-- Core arithmetic fact the backward skip rests on: INVERSE is the
multiplicative inverse of MULTIPLIER modulo 2^64. -/
theorem multiplier_mul_inverse_mod : (MULTIPLIER * INVERSE) % 2 ^ 64 = 1 := by
  decide

/-- A loop of `j` multiplications by `m2` undoes a loop of `j` multiplications
by `m1` whenever `m1 * m2 ≡ 1 (mod 2^64)` and the initial state fits in 64
bits. -/
theorem mulLoop_cancel (m1 m2 : Nat) (hinv : (m1 * m2) % 2 ^ 64 = 1)
    (j s : Nat) (hs : s < 2 ^ 64) : mulLoop m2 j (mulLoop m1 j s) = s := by
  rcases Nat.eq_zero_or_pos j with hj | hj
  · subst hj; simp [mulLoop]
  · have hj' : j ≠ 0 := by omega
    rw [mulLoop_eq, mulLoop_eq]
    simp only [hj', if_false]
    rw [Nat.mod_mul_mod, Nat.mul_assoc, ← Nat.mul_pow]
    have h1 : m1 * m2 ≡ 1 [MOD 2 ^ 64] := by
      unfold Nat.ModEq
      rw [hinv]
      norm_num
    have h3 : s * (m1 * m2) ^ j ≡ s * 1 ^ j [MOD 2 ^ 64] := (h1.pow j).mul_left s
    calc (s * (m1 * m2) ^ j) % 2 ^ 64 = (s * 1 ^ j) % 2 ^ 64 := h3
    _ = s := by rw [one_pow, Nat.mul_one]; exact Nat.mod_eq_of_lt hs

/-- MULTIPLIER is odd, hence a unit modulo 2^64. -/
theorem coprime_two_pow_MULTIPLIER : Nat.Coprime (2 ^ 64) MULTIPLIER := by
  rw [Nat.coprime_pow_left_iff (by norm_num), Nat.coprime_two_left, Nat.odd_iff]
  decide

/-- INVERSE is odd, hence a unit modulo 2^64. -/
theorem coprime_two_pow_INVERSE : Nat.Coprime (2 ^ 64) INVERSE := by
  rw [Nat.coprime_pow_left_iff (by norm_num), Nat.coprime_two_left, Nat.odd_iff]
  decide

/-- Repeated wrapping multiplication by a unit keeps the state nonzero and
below 2^64. -/
theorem mulLoop_valid (m : Nat) (hm : Nat.Coprime (2 ^ 64) m) :
    ∀ k s, s ≠ 0 → s < 2 ^ 64 → mulLoop m k s ≠ 0 ∧ mulLoop m k s < 2 ^ 64 := by
  intro k
  induction k with
  | zero => intro s h1 h2; exact ⟨h1, h2⟩
  | succ k ih =>
    intro s h1 h2
    rw [mulLoop]
    apply ih
    · intro hz
      have hdvd : 2 ^ 64 ∣ s * m := Nat.dvd_iff_mod_eq_zero.mpr hz
      have hdvds : (2 : Nat) ^ 64 ∣ s := hm.dvd_of_dvd_mul_right hdvd
      exact h1 (Nat.eq_zero_of_dvd_of_lt hdvds h2)
    · exact Nat.mod_lt _ (by norm_num)

/-- One `next_u32` step preserves the state invariant. -/
theorem next_u32_state_valid (s : Nat) (h1 : s ≠ 0) (h2 : s < 2 ^ 64) :
    (next_u32 s).1 ≠ 0 ∧ (next_u32 s).1 < 2 ^ 64 := by
  have h := mulLoop_valid MULTIPLIER coprime_two_pow_MULTIPLIER 1 s h1 h2
  simpa [mulLoop, next_u32] using h

/-- The last of `n + 1` successive outputs is the output permutation applied
to the state reached after `n + 1` multiplicative steps. -/
theorem outputs_getLastD (n : Nat) :
    ∀ s d, (outputs s (n + 1)).getLastD d = (next_u32 (mulLoop MULTIPLIER n s)).2 := by
  induction n with
  | zero => intro s d; rfl
  | succ n ih =>
    intro s d
    rw [outputs, List.getLastD_cons, ih]
    rfl

/-- Little-endian bytes of the `next_u64` combination: the low-half (second)
output's bytes come first, the high-half (first) output's bytes last. -/
theorem leBytes_concat (a b : Nat) (hb : b < 2 ^ 32) :
    leBytes ((a <<< 32) ^^^ b) 8 = leBytes b 4 ++ leBytes a 4 := by
  rw [shiftLeft_xor_eq_add a b 32 hb]
  simp only [leBytes, Nat.shiftRight_eq_div_pow]
  norm_num [List.range_succ]
  omega

/-- Closed form of `skip`: one modular multiplication by the appropriate
power of MULTIPLIER or INVERSE. -/
theorem skip_eq (s : Nat) (n : Int) :
    skip s n = if n = 0 then s
      else if 0 < n then (s * MULTIPLIER ^ n.toNat) % 2 ^ 64
      else (s * INVERSE ^ (-n).toNat) % 2 ^ 64 := by
  unfold skip
  rcases lt_trichotomy n 0 with h | h | h
  · have h1 : n ≠ 0 := by omega
    have h2 : ¬ 0 < n := by omega
    rw [if_neg h1, if_neg h2, if_neg h1, if_neg h2, mulLoop_eq]
    have h3 : (-n).toNat ≠ 0 := by omega
    rw [if_neg h3]
  · subst h
    simp
  · have h1 : n ≠ 0 := by omega
    rw [if_neg h1, if_pos h, if_neg h1, if_pos h, mulLoop_eq]
    have h3 : n.toNat ≠ 0 := by omega
    rw [if_neg h3]

/-- Seeding never yields a zero state and keeps the state below 2^64 when the
seed is a 64-bit value. -/
theorem seed_from_u64_valid (x : Nat) (hx : x < 2 ^ 64) :
    seed_from_u64 x ≠ 0 ∧ seed_from_u64 x < 2 ^ 64 := by
  unfold seed_from_u64
  split
  · exact ⟨one_ne_zero, by norm_num⟩
  · exact ⟨by assumption, hx⟩

/-- Seeding never yields a zero state, for any input. -/
theorem seed_from_u64_ne_zero (x : Nat) : seed_from_u64 x ≠ 0 := by
  unfold seed_from_u64
  split
  · exact one_ne_zero
  · assumption

/-- Every operation preserves the state invariant (nonzero, below 2^64). -/
theorem applyOp_valid (s : Nat) (op : Op) (h1 : s ≠ 0) (h2 : s < 2 ^ 64) :
    applyOp s op ≠ 0 ∧ applyOp s op < 2 ^ 64 := by
  cases op with
  | next32 => exact next_u32_state_valid s h1 h2
  | next64 =>
    have ha := next_u32_state_valid s h1 h2
    exact next_u32_state_valid _ ha.1 ha.2
  | skipBy n =>
    simp only [applyOp]
    unfold skip
    split
    · exact ⟨h1, h2⟩
    · split
      · exact mulLoop_valid MULTIPLIER coprime_two_pow_MULTIPLIER _ s h1 h2
      · exact mulLoop_valid INVERSE coprime_two_pow_INVERSE _ s h1 h2
  | newStream =>
    have ha := next_u32_state_valid s h1 h2
    exact next_u32_state_valid _ ha.1 ha.2

/-- Along any run from a valid state, the acting generator stays nonzero and
64-bit, and every spawned child starts nonzero. -/
theorem run_valid (ops : List Op) :
    ∀ s, s ≠ 0 → s < 2 ^ 64 →
      run s ops ≠ 0 ∧ run s ops < 2 ^ 64 ∧ ∀ c ∈ children s ops, c ≠ 0 := by
  induction ops with
  | nil =>
    intro s h1 h2
    exact ⟨h1, h2, by simp [children]⟩
  | cons op rest ih =>
    intro s h1 h2
    have hstep := applyOp_valid s op h1 h2
    have hrest := ih (applyOp s op) hstep.1 hstep.2
    refine ⟨hrest.1, hrest.2.1, ?_⟩
    intro c hc
    cases op with
    | newStream =>
      simp only [children, List.mem_append, List.mem_singleton] at hc
      rcases hc with hc | hc
      · rw [hc]
        exact seed_from_u64_ne_zero _
      · exact hrest.2.2 c hc
    | next32 =>
      simp only [children, List.nil_append] at hc
      exact hrest.2.2 c hc
    | next64 =>
      simp only [children, List.nil_append] at hc
      exact hrest.2.2 c hc
    | skipBy n =>
      simp only [children, List.nil_append] at hc
      exact hrest.2.2 c hc

/-! ### Claims -/

/-- Claim C1: one call to `next_u32` replaces state `s` by
`s' = (s * MULTIPLIER) mod 2^64` (exactly one wrapping state update) and
returns `((s' XOR (s' >> 22)) >> (22 + (s' >> 61)))` truncated to 32 bits;
no other state change occurs. -/
theorem claim_C1 (s : Nat) :
    next_u32 s = ((s * MULTIPLIER) % 2 ^ 64,
      ((((s * MULTIPLIER) % 2 ^ 64) ^^^ (((s * MULTIPLIER) % 2 ^ 64) >>> 22)) >>>
        (22 + (((s * MULTIPLIER) % 2 ^ 64) >>> 61))) % 2 ^ 32) := rfl

/-- Claim C2: one call to `next_u64` performs exactly two 32-bit output
cycles and returns the big-endian concatenation of the two 32-bit outputs:
the first output is the high 32 bits, the second the low 32 bits. -/
theorem claim_C2 (s : Nat) :
    (next_u64 s).1 = (next_u32 (next_u32 s).1).1 ∧
    (next_u64 s).2 = (next_u32 s).2 * 2 ^ 32 + (next_u32 (next_u32 s).1).2 ∧
    (next_u64 s).2 / 2 ^ 32 = (next_u32 s).2 ∧
    (next_u64 s).2 % 2 ^ 32 = (next_u32 (next_u32 s).1).2 := by
  have hb := next_u32_val_lt (next_u32 s).1
  have hval : (next_u64 s).2 = (next_u32 s).2 * 2 ^ 32 + (next_u32 (next_u32 s).1).2 :=
    shiftLeft_xor_eq_add _ _ 32 hb
  refine ⟨rfl, hval, ?_, ?_⟩
  · rw [hval, Nat.mul_comm ((next_u32 s).2) (2 ^ 32), Nat.mul_add_div (by norm_num),
      Nat.div_eq_of_lt hb, Nat.add_zero]
  · rw [hval, Nat.mul_comm ((next_u32 s).2) (2 ^ 32), Nat.mul_add_mod, Nat.mod_eq_of_lt hb]

/-- Claim C3 (amended): for a buffer length that is a multiple of 4, the
bytes are produced from successive 32-bit outputs in little-endian 4-byte
groups, but each full 8-byte chunk comes from one `next_u64` call encoded
little-endian, so within it the second 32-bit output's bytes precede the
first's; a trailing 4-byte group comes from a single `next_u32` output. -/
theorem claim_C3 (s q : Nat) :
    fill_bytes s (8 * q) = pairChunks s q ∧
      (fill_bytes s (8 * q + 4)).2 =
        (pairChunks s q).2 ++ leBytes (next_u32 (pairChunks s q).1).2 4 := by
  induction q generalizing s with
  | zero =>
    constructor
    · rfl
    · show (fill_bytes s 4).2 = [] ++ leBytes (next_u32 s).2 4
      simp [fill_bytes, leBytes]
  | succ q ih =>
    have hle : leBytes (next_u64 s).2 8 =
        leBytes (next_u32 (next_u32 s).1).2 4 ++ leBytes ((next_u32 s).2) 4 :=
      leBytes_concat (next_u32 s).2 (next_u32 (next_u32 s).1).2 (next_u32_val_lt _)
    have h641 : (next_u64 s).1 = (next_u32 (next_u32 s).1).1 := rfl
    constructor
    · have h8 : 8 * (q + 1) = 8 * q + 8 := by ring
      rw [h8]
      have hfb : fill_bytes s (8 * q + 8) =
          ((fill_bytes (next_u64 s).1 (8 * q)).1,
            leBytes (next_u64 s).2 8 ++ (fill_bytes (next_u64 s).1 (8 * q)).2) := rfl
      rw [hfb, (ih _).1, hle, h641]
      simp [pairChunks, List.append_assoc]
    · have h84 : 8 * (q + 1) + 4 = (8 * q + 4) + 8 := by ring
      rw [h84]
      have hfb : fill_bytes s ((8 * q + 4) + 8) =
          ((fill_bytes (next_u64 s).1 (8 * q + 4)).1,
            leBytes (next_u64 s).2 8 ++ (fill_bytes (next_u64 s).1 (8 * q + 4)).2) := rfl
      rw [hfb]
      show leBytes (next_u64 s).2 8 ++ (fill_bytes (next_u64 s).1 (8 * q + 4)).2 = _
      rw [(ih _).2, hle, h641]
      simp [pairChunks, List.append_assoc]

/-- Claim C3, counterexample to the original statement: filling 8 bytes from
seed 1 does not yield the little-endian encoding of the two successive
32-bit outputs in order; the two 4-byte groups are swapped. -/
theorem claim_C3_counterexample :
    (fill_bytes (seed_from_u64 1) 8).2 ≠
      leBytes ((outputs (seed_from_u64 1) 2).getD 0 0) 4 ++
        leBytes ((outputs (seed_from_u64 1) 2).getD 1 0) 4 := by decide

/-- Sanity check of the `fill_bytes` model against the byte order pinned by
the repository's own `test_fill_bytes`: the first four buffer bytes encode
the second 32-bit output, the last four the first output. -/
theorem fill_bytes_matches_repository_test :
    (fill_bytes (seed_from_u64 1) 8).2 =
      leBytes ((outputs (seed_from_u64 1) 2).getD 1 0) 4 ++
        leBytes ((outputs (seed_from_u64 1) 2).getD 0 0) 4 := by decide

/-- Claim C4: for every state and every signed 32-bit step count, `skip`
leaves the state at `s * MULTIPLIER^n mod 2^64` for positive `n`, at
`s * INVERSE^|n| mod 2^64` for negative `n`, and unchanged for `n = 0`. -/
theorem claim_C4 (s : Nat) (n : Int) (h1 : -2147483648 ≤ n) (h2 : n ≤ 2147483647) :
    (n = 0 → skip s n = s) ∧
    (0 < n → skip s n = (s * MULTIPLIER ^ n.toNat) % 2 ^ 64) ∧
    (n < 0 → skip s n = (s * INVERSE ^ (-n).toNat) % 2 ^ 64) := by
  refine ⟨?_, ?_, ?_⟩ <;> intro h <;> rw [skip_eq]
  · rw [if_pos h]
  · have h0 : n ≠ 0 := by omega
    rw [if_neg h0, if_pos h]
  · have h0 : n ≠ 0 := by omega
    have h3 : ¬ 0 < n := by omega
    rw [if_neg h0, if_neg h3]

/-- Claim C4, witness at a concrete input. -/
theorem claim_C4_witness :
    skip 7 (-3) = (7 * INVERSE ^ 3) % 2 ^ 64 :=
  (claim_C4 7 (-3) (by decide) (by decide)).2.2 (by decide)

/-- Claim C5 (amended): skipping `k` then producing one 32-bit output yields
the `(k+1)`-th raw 32-bit output (producing `k + 1` raw outputs and
discarding the first `k`), not the `k`-th as originally stated. -/
theorem claim_C5 (s k : Nat) (hk : 0 < k) :
    (next_u32 (skip (seed_from_u64 s) (k : Int))).2 =
      (outputs (seed_from_u64 s) (k + 1)).getLastD 0 := by
  have hk0 : (k : Int) ≠ 0 := by omega
  have hkpos : (0 : Int) < k := by omega
  unfold skip
  rw [if_neg hk0, if_pos hkpos, Int.toNat_natCast, outputs_getLastD k]

/-- Claim C5, witness at a concrete input. -/
theorem claim_C5_witness :
    (next_u32 (skip (seed_from_u64 1) (2 : Int))).2 =
      (outputs (seed_from_u64 1) 3).getLastD 0 :=
  claim_C5 1 2 (by decide)

/-- Claim C5, counterexample to the original statement: from seed 1 with
`k = 1`, skipping 1 and producing an output gives the second raw output,
not the first. -/
theorem claim_C5_counterexample :
    (next_u32 (skip (seed_from_u64 1) (1 : Int))).2 ≠
      (outputs (seed_from_u64 1) 1).getLastD 0 := by decide

/-- Claim C6: `skip k` followed by `skip (-k)` restores the exact register
value for any 64-bit state and any `k` in the 32-bit range, resting on
INVERSE being the multiplicative inverse of MULTIPLIER modulo 2^64. -/
theorem claim_C6 (s : Nat) (k : Int) (hs : s < 2 ^ 64)
    (h1 : -2147483648 ≤ k) (h2 : k ≤ 2147483647) :
    (MULTIPLIER * INVERSE) % 2 ^ 64 = 1 ∧ skip (skip s k) (-k) = s := by
  refine ⟨multiplier_mul_inverse_mod, ?_⟩
  unfold skip
  rcases lt_trichotomy k 0 with h | h | h
  · have hk0 : k ≠ 0 := by omega
    have hnk : ¬ 0 < k := by omega
    have hk0' : -k ≠ 0 := by omega
    have hpos : (0 : Int) < -k := by omega
    rw [if_neg hk0, if_neg hnk, if_neg hk0', if_pos hpos]
    exact mulLoop_cancel INVERSE MULTIPLIER
      (by rw [Nat.mul_comm]; exact multiplier_mul_inverse_mod) _ s hs
  · subst h
    simp
  · have hk0 : k ≠ 0 := by omega
    have hnk0 : -k ≠ 0 := by omega
    have hneg : ¬ (0 : Int) < -k := by omega
    rw [if_neg hk0, if_pos h, if_neg hnk0, if_neg hneg, neg_neg]
    exact mulLoop_cancel MULTIPLIER INVERSE multiplier_mul_inverse_mod _ s hs

/-- Claim C6, witness at a concrete input. -/
theorem claim_C6_witness :
    (MULTIPLIER * INVERSE) % 2 ^ 64 = 1 ∧ skip (skip 12345 7) (-7) = 12345 :=
  claim_C6 12345 7 (by decide) (by decide) (by decide)

/-- Claim C7: for any 64-bit seed and any finite sequence of operations, the
seeded generator's register is never 0, and every generator spawned by
`new_stream` along the way starts with a nonzero register (seeding replaces
a zero input by 1, and every operation preserves nonzero state). -/
theorem claim_C7 (seed : Nat) (hseed : seed < 2 ^ 64) (ops : List Op) :
    run (seed_from_u64 seed) ops ≠ 0 ∧
      ∀ c ∈ children (seed_from_u64 seed) ops, c ≠ 0 := by
  have hv := seed_from_u64_valid seed hseed
  have h := run_valid ops _ hv.1 hv.2
  exact ⟨h.1, h.2.2⟩

/-- Claim C7, witness at a concrete input. -/
theorem claim_C7_witness : run (seed_from_u64 0) [Op.newStream] ≠ 0 :=
  (claim_C7 0 (by decide) [Op.newStream]).1

/-- Claim C8: `seed_from_u64` stores the given value directly as the state,
except that input 0 is replaced by 1; seeding from `u64::MAX` yields exactly
`u64::MAX`, with no multiplication performed. -/
theorem claim_C8 :
    seed_from_u64 0 = 1 ∧ (∀ s : Nat, s ≠ 0 → seed_from_u64 s = s) ∧
      seed_from_u64 (2 ^ 64 - 1) = 2 ^ 64 - 1 := by
  refine ⟨rfl, ?_, by decide⟩
  intro s hs
  simp [seed_from_u64, hs]

/-- Claim C8, witness at a concrete input. -/
theorem claim_C8_witness :
    seed_from_u64 5 = 5 ∧ seed_from_u64 (2 ^ 64 - 1) = 2 ^ 64 - 1 :=
  ⟨claim_C8.2.1 5 (by decide), claim_C8.2.2⟩

/-- Claim C9: `from_seed` packs the 8 bytes little-endian by XOR-combining
`b[i] <<< (8*i)` and delegates to `seed_from_u64`; the byte array
`[0xef,0xcd,0xab,0x89,0x67,0x45,0x23,0x01]` seeds the register to
`0x0123456789abcdef`. -/
theorem claim_C9 :
    (∀ b0 b1 b2 b3 b4 b5 b6 b7 : Nat,
        b0 < 256 → b1 < 256 → b2 < 256 → b3 < 256 →
        b4 < 256 → b5 < 256 → b6 < 256 → b7 < 256 →
        from_seed [b0, b1, b2, b3, b4, b5, b6, b7] =
          seed_from_u64 ((b0 <<< (8 * 0)) ^^^ (b1 <<< (8 * 1)) ^^^ (b2 <<< (8 * 2)) ^^^
            (b3 <<< (8 * 3)) ^^^ (b4 <<< (8 * 4)) ^^^ (b5 <<< (8 * 5)) ^^^
            (b6 <<< (8 * 6)) ^^^ (b7 <<< (8 * 7)))) ∧
      from_seed [0xef, 0xcd, 0xab, 0x89, 0x67, 0x45, 0x23, 0x01] = 0x0123456789abcdef := by
  constructor
  · intro b0 b1 b2 b3 b4 b5 b6 b7 _ _ _ _ _ _ _ _
    simp [from_seed, arr_to_u64, arr_to_u64_go]
  · decide

/-- Claim C9, witness at a concrete input. -/
theorem claim_C9_witness :
    from_seed [1, 2, 3, 4, 5, 6, 7, 8] =
      seed_from_u64 ((1 <<< (8 * 0)) ^^^ (2 <<< (8 * 1)) ^^^ (3 <<< (8 * 2)) ^^^
        (4 <<< (8 * 3)) ^^^ (5 <<< (8 * 4)) ^^^ (6 <<< (8 * 5)) ^^^
        (7 <<< (8 * 6)) ^^^ (8 <<< (8 * 7))) :=
  claim_C9.1 1 2 3 4 5 6 7 8 (by decide) (by decide) (by decide) (by decide)
    (by decide) (by decide) (by decide) (by decide)

/-- Claim C10: seeding is not injective at the zero guard: seeds 0 and 1 both
produce state 1, so the two seeded generators evolve identically under every
sequence of operations and produce identical outputs and children. -/
theorem claim_C10 :
    seed_from_u64 0 = seed_from_u64 1 ∧
      (∀ ops : List Op, run (seed_from_u64 0) ops = run (seed_from_u64 1) ops ∧
        children (seed_from_u64 0) ops = children (seed_from_u64 1) ops) ∧
      (∀ n : Nat, outputs (seed_from_u64 0) n = outputs (seed_from_u64 1) n) :=
  ⟨rfl, fun _ => ⟨rfl, rfl⟩, fun _ => rfl⟩
end Pcg
